import Mathlib

/-!
Verification of the LRU storage component of mozc (`src/storage/lru_storage.h`).

The repository ships the class declaration `LRUStorage` in
`src/storage/lru_storage.h`; the member functions other than
`LookupAsString` (which is defined inline in the header) are implemented in
`lru_storage.cc`, which is not part of the available sources.  Their
behaviour is therefore modelled from the specification (sections 3,
4.3 and 4.4): the store is a fixed-capacity LRU key/value cache whose
observable state is the header triple (value size, capacity, seed)
together with the recency index, a list of live entries ordered from most
recently used to least recently used.  Keys reach the store only through
their 64-bit fingerprints (spec 4.2), so the model identifies a key with
its fingerprint; fingerprint collisions between distinct keys are the
accepted limitation the spec documents and are outside this model.

Machine integers (`uint32` timestamps, `uint64` fingerprints, `size_t`
sizes) are modelled as `Nat`; none of the verified operations performs
arithmetic that can overflow on them.  Byte strings are lists of bytes
modelled as `List Nat`.
-/

/-- One live element of the LRU cache: its fingerprint, its last-access
timestamp and its value bytes.  Mirrors the slot payload
`[fingerprint:u64][last_access:u32][value: value_size bytes]` described in
the spec's on-disk layout. -/
structure Entry where
  fp : Nat
  last_access : Nat
  value : List Nat
deriving Repr, DecidableEq

instance : Inhabited Entry := ⟨⟨0, 0, []⟩⟩

/-- Modelled from the spec: an open `LRUStorage` (the implementation file
`lru_storage.cc` is unavailable).  Field names follow the members of the
class in `src/storage/lru_storage.h`: `value_size_`, `size_` (the
capacity, i.e. the maximum number of items) and `seed_` are the header
fields fixed at creation; `lru_list_` is the recency index, front is the
most recently used element (spec 3: RecencyIndex, MRU first).  Each list
element carries its fingerprint, timestamp and value, merging the
information the implementation splits between `lru_list_`, `lru_map_` and
the mapped slot bytes. -/
structure LRUStorage where
  value_size_ : Nat
  size_ : Nat
  seed_ : Nat
  lru_list_ : List Entry
deriving Repr, DecidableEq

/-- Returns the user specified value size (`LRUStorage::value_size`). -/
def LRUStorage.value_size (st : LRUStorage) : Nat :=
  st.value_size_

/-- Returns the maximum number of items, the capacity
(`LRUStorage::size`). -/
def LRUStorage.size (st : LRUStorage) : Nat :=
  st.size_

/-- Returns the seed used for fingerprinting (`LRUStorage::seed`). -/
def LRUStorage.seed (st : LRUStorage) : Nat :=
  st.seed_

/-- Returns the number of items currently in the LRU
(`LRUStorage::used_size`): the number of live entries of the recency
index. -/
def LRUStorage.used_size (st : LRUStorage) : Nat :=
  st.lru_list_.length

/-- The fingerprints of the live entries, MRU first. -/
def LRUStorage.fps (st : LRUStorage) : List Nat :=
  st.lru_list_.map Entry.fp

/-- Finds the live entry for a fingerprint, the model of the
`lru_map_.find(fp)` lookup the implementation performs. -/
def LRUStorage.findEntry (st : LRUStorage) (fp : Nat) : Option Entry :=
  st.lru_list_.find? (fun e => e.fp == fp)

/-- Modelled from the spec (4.3 Lookup): a pure read returning the value
bytes and the last-access timestamp of the entry, or `none` when the key
is absent.  It never mutates order or timestamp. -/
def LRUStorage.Lookup (st : LRUStorage) (fp : Nat) : Option (List Nat × Nat) :=
  match st.findEntry fp with
  | some e => some (e.value, e.last_access)
  | none => none

/-- Modelled from the spec (4.3 Lookup is a pure read): Lookup as a
state-passing operation, returning the lookup result together with the
store it leaves behind, which per the spec is the store it was given. -/
def LRUStorage.LookupRun (st : LRUStorage) (fp : Nat) :
    Option (List Nat × Nat) × LRUStorage :=
  (st.Lookup fp, st)

/-- Embeds `LRUStorage::LookupAsString` from `src/storage/lru_storage.h`
(defined inline there): when the pointer returned by `Lookup` is null the
empty view is returned, otherwise a view of exactly `value_size_` bytes
starting at the returned pointer. -/
def LRUStorage.LookupAsString (st : LRUStorage) (fp : Nat) : List Nat :=
  match st.Lookup fp with
  | none => []
  | some (v, _) => v.take st.value_size_

/-- Modelled from the spec (4.3 Insert): if the key is present, overwrite
the value, set its timestamp to now and move it to the head.  If absent:
claim a free slot when one remains, i.e. when fewer than capacity entries
are live; otherwise evict the tail (LRU) entry and reuse its storage.
The new entry is inserted at the head.  Insert never fails for capacity
reasons. -/
def LRUStorage.Insert (st : LRUStorage) (fp : Nat) (v : List Nat) (now : Nat) :
    Bool × LRUStorage :=
  match st.findEntry fp with
  | some _ =>
      (true, { st with lru_list_ := ⟨fp, now, v⟩ :: st.lru_list_.eraseP (fun e => e.fp == fp) })
  | none =>
      if st.lru_list_.length < st.size_ then
        (true, { st with lru_list_ := ⟨fp, now, v⟩ :: st.lru_list_ })
      else
        (true, { st with lru_list_ := ⟨fp, now, v⟩ :: st.lru_list_.dropLast })

/-- Modelled from the spec (4.3 TryInsert): identical to Insert but a
no-op returning false when the key is absent. -/
def LRUStorage.TryInsert (st : LRUStorage) (fp : Nat) (v : List Nat) (now : Nat) :
    Bool × LRUStorage :=
  match st.findEntry fp with
  | some _ => st.Insert fp v now
  | none => (false, st)

/-- Modelled from the spec (4.3 Touch): if the key is present, moves its
entry to the head and sets its timestamp to now; returns false if
absent. -/
def LRUStorage.Touch (st : LRUStorage) (fp : Nat) (now : Nat) : Bool × LRUStorage :=
  match st.findEntry fp with
  | some e =>
      (true, { st with lru_list_ := ⟨fp, now, e.value⟩ :: st.lru_list_.eraseP (fun x => x.fp == fp) })
  | none => (false, st)

/-- Modelled from the spec (4.3 Delete): if the key is present, removes
the map entry and list node and returns true; absence returns false, not
an error. -/
def LRUStorage.Delete (st : LRUStorage) (fp : Nat) : Bool × LRUStorage :=
  match st.findEntry fp with
  | some _ =>
      (true, { st with lru_list_ := st.lru_list_.eraseP (fun e => e.fp == fp) })
  | none => (false, st)

/-- Modelled from the spec (4.3 DeleteElementsBefore): removes every
entry with `last_access < timestamp` and returns the number of deleted
elements. -/
def LRUStorage.DeleteElementsBefore (st : LRUStorage) (timestamp : Nat) :
    Nat × LRUStorage :=
  ((st.lru_list_.filter (fun e => e.last_access < timestamp)).length,
   { st with lru_list_ := st.lru_list_.filter (fun e => ¬ (e.last_access < timestamp)) })

/-- Modelled from the spec (4.3): `DeleteElementsUntouchedFor62Days(now)`
equals `DeleteElementsBefore(now − 62 days)`, with 62 days expressed in
seconds. -/
def LRUStorage.DeleteElementsUntouchedFor62Days (st : LRUStorage) (now : Nat) :
    Nat × LRUStorage :=
  st.DeleteElementsBefore (now - 62 * 24 * 60 * 60)

/-- Modelled from the spec (4.3 GetAllValues): all the values ordered new
to old, i.e. MRU first. -/
def LRUStorage.GetAllValues (st : LRUStorage) : List (List Nat) :=
  st.lru_list_.map Entry.value

/-- Modelled from the spec (4.3 Clear): drops all entries and restores
full capacity, retaining value size, capacity and seed. -/
def LRUStorage.Clear (st : LRUStorage) : LRUStorage :=
  { st with lru_list_ := [] }

/-- Modelled from the spec (4.4 Merge): requires equal value size and
equal seed, otherwise fails with IncompatibleFormat (reported as false).
On success the other store's entries are applied to this store via
Insert, processed in ascending timestamp order, oldest first, a stable
sort keeping relative source order on ties. -/
def LRUStorage.Merge (st other : LRUStorage) : Bool × LRUStorage :=
  if st.value_size_ == other.value_size_ && st.seed_ == other.seed_ then
    (true,
     (other.lru_list_.mergeSort (fun a b => a.last_access ≤ b.last_access)).foldl
       (fun s e => (s.Insert e.fp e.value e.last_access).2) st)
  else
    (false, st)

/-- Modelled from the spec: a freshly created and opened store
(`CreateStorageFile` followed by `Open`) with the given header fields and
no live entries. -/
def LRUStorage.create (value_size size seed : Nat) : LRUStorage :=
  ⟨value_size, size, seed, []⟩

/-- Folds `Insert` over a list of (fingerprint, value, timestamp)
triples, in list order. -/
def LRUStorage.insertAll (st : LRUStorage) (xs : List (Nat × List Nat × Nat)) :
    LRUStorage :=
  xs.foldl (fun s x => (s.Insert x.1 x.2.1 x.2.2).2) st

/-- Well-formedness of an open store, the invariants of spec section 3:
at most one live entry per fingerprint, every stored value has exactly
`value_size_` bytes, and the number of live entries does not exceed the
capacity. -/
def LRUStorage.WF (st : LRUStorage) : Prop :=
  st.fps.Nodup ∧ (∀ e ∈ st.lru_list_, e.value.length = st.value_size_) ∧
    st.lru_list_.length ≤ st.size_

instance (st : LRUStorage) : Decidable st.WF := by
  unfold LRUStorage.WF
  infer_instance

/-- One mutating call of the public API, used to describe the reachable
states of a store.  `merge` carries the other store merged in. -/
inductive Op where
  | insert (fp : Nat) (v : List Nat) (now : Nat)
  | tryInsert (fp : Nat) (v : List Nat) (now : Nat)
  | touch (fp : Nat) (now : Nat)
  | delete (fp : Nat)
  | deleteBefore (t : Nat)
  | clear
  | merge (other : LRUStorage)
deriving Repr

/-- Applies one public API call to the store. -/
def LRUStorage.applyOp (st : LRUStorage) : Op → LRUStorage
  | .insert fp v now => (st.Insert fp v now).2
  | .tryInsert fp v now => (st.TryInsert fp v now).2
  | .touch fp now => (st.Touch fp now).2
  | .delete fp => (st.Delete fp).2
  | .deleteBefore t => (st.DeleteElementsBefore t).2
  | .clear => st.Clear
  | .merge other => (st.Merge other).2

/-- Runs a sequence of public API calls. -/
def LRUStorage.run (st : LRUStorage) (ops : List Op) : LRUStorage :=
  ops.foldl LRUStorage.applyOp st

/-! ### The slot-level view, for the low-level `Write` entry point

`LRUStorage::Write` acts below the recency index: it overwrites the bytes
of one slot of the mapped region and, as the header documents, "will not
update the index of the storage".  To state that, the store is viewed at
the slot level: the mapped slot array next to the separate in-memory
index (`lru_map_` and `lru_list_`, here over slot indices instead of
pointers into the mapped buffer). -/

/-- Modelled from the spec (sections 2 and 3, `lru_storage.cc` being
unavailable): an open store seen at the slot level.  `slots` is the
mapped slot array; `lru_list` is the recency order as slot handles, MRU
first; `lru_map` maps fingerprints to slot handles. -/
structure MappedStore where
  value_size : Nat
  slots : List Entry
  lru_list : List Nat
  lru_map : List (Nat × Nat)
deriving Repr, DecidableEq

/-- Embeds `LRUStorage::Write` (header: writes one entry at the i-th
index; this data will not update the index of the storage).  Modelled
from the spec at the slot level: the call overwrites slot `i`'s
fingerprint, timestamp and `value_size` value bytes and touches nothing
else. -/
def MappedStore.Write (st : MappedStore) (i : Nat) (fp : Nat) (v : List Nat)
    (last_access_time : Nat) : MappedStore :=
  { st with slots := st.slots.set i ⟨fp, last_access_time, v.take st.value_size⟩ }

/-- Returns the number of items in the LRU, at the slot-level view. -/
def MappedStore.used_size (st : MappedStore) : Nat :=
  st.lru_list.length

/-- Returns all the values ordered new to old, at the slot-level view:
the recency list is walked and each handle's slot bytes are read. -/
def MappedStore.GetAllValues (st : MappedStore) : List (List Nat) :=
  st.lru_list.map (fun i => (st.slots.getD i default).value)

/-! ### Helper lemmas -/

theorem LRUStorage.Insert_lru_list_cons (st : LRUStorage) (fp now : Nat) (v : List Nat) :
    ∃ tail, (st.Insert fp v now).2.lru_list_ = ⟨fp, now, v⟩ :: tail := by
  unfold LRUStorage.Insert
  cases st.findEntry fp with
  | some e => exact ⟨_, rfl⟩
  | none =>
      by_cases h : st.lru_list_.length < st.size_
      · rw [if_pos h]
        exact ⟨_, rfl⟩
      · rw [if_neg h]
        exact ⟨_, rfl⟩

theorem LRUStorage.find?_eraseP_eq_none (l : List Entry) (fp : Nat)
    (h : (l.map Entry.fp).Nodup) :
    (l.eraseP (fun e => e.fp == fp)).find? (fun e => e.fp == fp) = none := by
  induction l with
  | nil => rfl
  | cons a tl ih =>
      simp only [List.map_cons, List.nodup_cons] at h
      by_cases ha : a.fp = fp
      · rw [List.eraseP_cons_of_pos (by simp [ha])]
        rw [List.find?_eq_none]
        intro x hx
        simp only [beq_iff_eq]
        intro hxfp
        apply h.1
        have hmem : x.fp ∈ tl.map Entry.fp := List.mem_map_of_mem Entry.fp hx
        rwa [hxfp, ← ha] at hmem
      · rw [List.eraseP_cons_of_neg (by simp [ha])]
        rw [List.find?_cons_of_neg _ (by simp [ha])]
        exact ih h.2

theorem LRUStorage.find?_filter (l : List Entry) (p : Entry → Bool) (fp : Nat)
    (h : (l.map Entry.fp).Nodup) :
    (l.filter p).find? (fun e => e.fp == fp) =
      match l.find? (fun e => e.fp == fp) with
      | some e => if p e then some e else none
      | none => none := by
  induction l with
  | nil => rfl
  | cons a tl ih =>
      simp only [List.map_cons, List.nodup_cons] at h
      by_cases ha : a.fp = fp
      · rw [List.find?_cons_of_pos _ (by simp [ha])]
        by_cases hpa : p a
        · rw [List.filter_cons_of_pos hpa, List.find?_cons_of_pos _ (by simp [ha])]
          simp [hpa]
        · rw [List.filter_cons_of_neg hpa]
          have hnone : (List.filter p tl).find? (fun e => e.fp == fp) = none := by
            rw [List.find?_eq_none]
            intro x hx
            simp only [beq_iff_eq]
            intro hxfp
            apply h.1
            have hmem : x.fp ∈ tl.map Entry.fp :=
              List.mem_map_of_mem Entry.fp (List.mem_of_mem_filter hx)
            rwa [hxfp, ← ha] at hmem
          rw [hnone]
          simp [hpa]
      · rw [List.find?_cons_of_neg _ (by simp [ha])]
        by_cases hpa : p a
        · rw [List.filter_cons_of_pos hpa, List.find?_cons_of_neg _ (by simp [ha])]
          exact ih h.2
        · rw [List.filter_cons_of_neg hpa]
          exact ih h.2

theorem LRUStorage.length_filter_add_length_filter_not (l : List Entry) (p : Entry → Bool) :
    (l.filter p).length + (l.filter (fun e => ! p e)).length = l.length := by
  induction l with
  | nil => rfl
  | cons a tl ih =>
      by_cases hpa : p a <;>
        simp only [List.filter_cons, hpa, Bool.not_true, Bool.not_false, if_pos, if_neg,
          Bool.false_eq_true, not_false_eq_true, List.length_cons, ite_true, ite_false] <;>
        omega

/-! ### Claim theorems -/

/-- C2: for every key k and every value v of length value_size, after
Insert(k, v) succeeds, Lookup(k) returns v together with a last-access
timestamp that is greater than or equal to the time of the insertion. -/
theorem Insert_Lookup_roundtrip (st : LRUStorage) (fp now : Nat) (v : List Nat)
    (hv : v.length = st.value_size) :
    (st.Insert fp v now).1 = true ∧
      ∃ t, (st.Insert fp v now).2.Lookup fp = some (v, t) ∧ now ≤ t := by
  obtain ⟨tail, htail⟩ := LRUStorage.Insert_lru_list_cons st fp now v
  refine ⟨?_, now, ?_, Nat.le_refl now⟩
  · unfold LRUStorage.Insert
    cases st.findEntry fp with
    | some e => rfl
    | none =>
        by_cases h : st.lru_list_.length < st.size_
        · rw [if_pos h]
        · rw [if_neg h]
  · unfold LRUStorage.Lookup LRUStorage.findEntry
    rw [htail, List.find?_cons_of_pos _ (by simp)]

theorem Insert_Lookup_roundtrip_witness :
    ([5].length = (LRUStorage.create 1 2 0).value_size) ∧
      (((LRUStorage.create 1 2 0).Insert 3 [5] 7).1 = true ∧
        ∃ t, ((LRUStorage.create 1 2 0).Insert 3 [5] 7).2.Lookup 3 = some ([5], t) ∧ 7 ≤ t) :=
  ⟨by decide, Insert_Lookup_roundtrip (LRUStorage.create 1 2 0) 3 7 [5] (by decide)⟩

/-- C4: Merge(other) fails (IncompatibleFormat, reported as false) when
the two stores differ in value_size or in seed, succeeds exactly when
both match, and a failed merge leaves the store unchanged. -/
theorem Merge_requires_compatible (st other : LRUStorage) :
    ((st.Merge other).1 = true ↔
      st.value_size = other.value_size ∧ st.seed = other.seed)
    ∧ ((st.Merge other).1 = false → (st.Merge other).2 = st) := by
  unfold LRUStorage.Merge LRUStorage.value_size LRUStorage.seed
  by_cases h : (st.value_size_ == other.value_size_ && st.seed_ == other.seed_) = true
  · simp only [Bool.and_eq_true, beq_iff_eq] at h
    simp [h]
  · simp only [Bool.and_eq_true, beq_iff_eq] at h
    rw [if_neg (by simpa using h)]
    simpa using h

theorem Merge_requires_compatible_witness :
    (((LRUStorage.create 4 2 1).Merge (LRUStorage.create 4 2 9)).1 = true ↔
      (LRUStorage.create 4 2 1).value_size = (LRUStorage.create 4 2 9).value_size ∧
        (LRUStorage.create 4 2 1).seed = (LRUStorage.create 4 2 9).seed)
    ∧ (((LRUStorage.create 4 2 1).Merge (LRUStorage.create 4 2 9)).1 = false →
        ((LRUStorage.create 4 2 1).Merge (LRUStorage.create 4 2 9)).2
          = LRUStorage.create 4 2 1) :=
  Merge_requires_compatible (LRUStorage.create 4 2 1) (LRUStorage.create 4 2 9)

/-- C6: when the key is absent, TryInsert(k, v) returns false and leaves
the whole store unchanged (so used_size, every stored value, every
timestamp and the recency order are all as before); when the key is
present, TryInsert(k, v) is exactly Insert(k, v), result included. -/
theorem TryInsert_frame (st : LRUStorage) (fp now : Nat) (v : List Nat) :
    (st.Lookup fp = none → st.TryInsert fp v now = (false, st))
    ∧ (st.Lookup fp ≠ none → st.TryInsert fp v now = st.Insert fp v now) := by
  unfold LRUStorage.TryInsert LRUStorage.Lookup
  cases h : st.findEntry fp <;> simp [h]

theorem TryInsert_frame_witness :
    (((LRUStorage.create 1 2 0).Lookup 3 = none →
        (LRUStorage.create 1 2 0).TryInsert 3 [5] 7 = (false, LRUStorage.create 1 2 0))
      ∧ ((LRUStorage.create 1 2 0).Lookup 3 ≠ none →
        (LRUStorage.create 1 2 0).TryInsert 3 [5] 7
          = (LRUStorage.create 1 2 0).Insert 3 [5] 7)) :=
  TryInsert_frame (LRUStorage.create 1 2 0) 3 7 [5]

/-- C8: Lookup is a pure read: run as a state-passing operation it
returns the lookup result and a store equal to the one it was given, so
no timestamp, recency order, used_size or stored value changes, whether
or not the key is found. -/
theorem Lookup_pure (st : LRUStorage) (fp : Nat) :
    (st.LookupRun fp).2 = st
    ∧ (st.LookupRun fp).1 = st.Lookup fp
    ∧ (st.LookupRun fp).2.used_size = st.used_size
    ∧ (st.LookupRun fp).2.GetAllValues = st.GetAllValues :=
  ⟨rfl, rfl, rfl, rfl⟩

/-- C10: for an index i < size(), Write(i, fp, value, last_access_time)
modifies only the bytes of slot i and does not update the in-memory
index: used_size, the fingerprint map and the recency order (the MRU-first
slot sequence GetAllValues walks) are unchanged by the call. -/
theorem Write_does_not_update_index (st : MappedStore) (i fp last_access_time : Nat)
    (v : List Nat) (hi : i < st.slots.length) :
    (st.Write i fp v last_access_time).used_size = st.used_size
    ∧ (st.Write i fp v last_access_time).lru_map = st.lru_map
    ∧ (st.Write i fp v last_access_time).lru_list = st.lru_list
    ∧ (∀ j, j ≠ i → (st.Write i fp v last_access_time).slots[j]? = st.slots[j]?)
    ∧ (st.Write i fp v last_access_time).slots.length = st.slots.length := by
  refine ⟨rfl, rfl, rfl, ?_, List.length_set st.slots i _⟩
  intro j hj
  exact List.getElem?_set_ne (Ne.symm hj)

theorem Write_does_not_update_index_witness :
    (0 < (MappedStore.mk 1 [⟨9, 2, [3]⟩, ⟨8, 1, [4]⟩] [0, 1] [(9, 0), (8, 1)]).slots.length)
    ∧ (((MappedStore.mk 1 [⟨9, 2, [3]⟩, ⟨8, 1, [4]⟩] [0, 1] [(9, 0), (8, 1)]).Write 0 7 [6] 5).used_size
        = (MappedStore.mk 1 [⟨9, 2, [3]⟩, ⟨8, 1, [4]⟩] [0, 1] [(9, 0), (8, 1)]).used_size
      ∧ ((MappedStore.mk 1 [⟨9, 2, [3]⟩, ⟨8, 1, [4]⟩] [0, 1] [(9, 0), (8, 1)]).Write 0 7 [6] 5).lru_map
        = (MappedStore.mk 1 [⟨9, 2, [3]⟩, ⟨8, 1, [4]⟩] [0, 1] [(9, 0), (8, 1)]).lru_map
      ∧ ((MappedStore.mk 1 [⟨9, 2, [3]⟩, ⟨8, 1, [4]⟩] [0, 1] [(9, 0), (8, 1)]).Write 0 7 [6] 5).lru_list
        = (MappedStore.mk 1 [⟨9, 2, [3]⟩, ⟨8, 1, [4]⟩] [0, 1] [(9, 0), (8, 1)]).lru_list
      ∧ (∀ j, j ≠ 0 →
          ((MappedStore.mk 1 [⟨9, 2, [3]⟩, ⟨8, 1, [4]⟩] [0, 1] [(9, 0), (8, 1)]).Write 0 7 [6] 5).slots[j]?
            = (MappedStore.mk 1 [⟨9, 2, [3]⟩, ⟨8, 1, [4]⟩] [0, 1] [(9, 0), (8, 1)]).slots[j]?)
      ∧ ((MappedStore.mk 1 [⟨9, 2, [3]⟩, ⟨8, 1, [4]⟩] [0, 1] [(9, 0), (8, 1)]).Write 0 7 [6] 5).slots.length
        = (MappedStore.mk 1 [⟨9, 2, [3]⟩, ⟨8, 1, [4]⟩] [0, 1] [(9, 0), (8, 1)]).slots.length) :=
  ⟨by decide,
   Write_does_not_update_index
     (MappedStore.mk 1 [⟨9, 2, [3]⟩, ⟨8, 1, [4]⟩] [0, 1] [(9, 0), (8, 1)]) 0 7 5 [6]
     (by decide)⟩

/-- C5: Delete(k) on an absent key returns false and leaves the store
unchanged (so used_size is unchanged); on a present key it returns true,
used_size decreases by exactly one, and a subsequent Lookup(k) returns
not-found. -/
theorem Delete_spec (st : LRUStorage) (fp : Nat) (hwf : st.WF) :
    (st.Lookup fp = none → st.Delete fp = (false, st))
    ∧ (st.Lookup fp ≠ none →
        (st.Delete fp).1 = true
        ∧ (st.Delete fp).2.used_size + 1 = st.used_size
        ∧ (st.Delete fp).2.Lookup fp = none) := by
  obtain ⟨hnd, hval, hlen⟩ := hwf
  unfold LRUStorage.Delete LRUStorage.Lookup LRUStorage.used_size
  cases h : st.findEntry fp with
  | none => simp [h]
  | some e =>
      unfold LRUStorage.findEntry at h
      constructor
      · intro hc
        simp at hc
      · intro _
        refine ⟨rfl, ?_, ?_⟩
        · have hmem := List.mem_of_find?_eq_some h
          have hp := List.find?_some h
          have h1 : (st.lru_list_.eraseP (fun e => e.fp == fp)).length
              = st.lru_list_.length - 1 :=
            List.length_eraseP_of_mem hmem hp
          have hpos : 0 < st.lru_list_.length := List.length_pos_of_mem hmem
          simp only [h1]
          omega
        · unfold LRUStorage.findEntry
          simp only [LRUStorage.fps] at hnd
          rw [LRUStorage.find?_eraseP_eq_none st.lru_list_ fp hnd]

theorem Delete_spec_witness :
    ((LRUStorage.mk 1 2 0 [⟨3, 7, [5]⟩]).WF)
    ∧ (((LRUStorage.mk 1 2 0 [⟨3, 7, [5]⟩]).Lookup 3 = none →
          (LRUStorage.mk 1 2 0 [⟨3, 7, [5]⟩]).Delete 3
            = (false, LRUStorage.mk 1 2 0 [⟨3, 7, [5]⟩]))
        ∧ ((LRUStorage.mk 1 2 0 [⟨3, 7, [5]⟩]).Lookup 3 ≠ none →
          ((LRUStorage.mk 1 2 0 [⟨3, 7, [5]⟩]).Delete 3).1 = true
          ∧ ((LRUStorage.mk 1 2 0 [⟨3, 7, [5]⟩]).Delete 3).2.used_size + 1
              = (LRUStorage.mk 1 2 0 [⟨3, 7, [5]⟩]).used_size
          ∧ ((LRUStorage.mk 1 2 0 [⟨3, 7, [5]⟩]).Delete 3).2.Lookup 3 = none)) :=
  ⟨by decide, Delete_spec (LRUStorage.mk 1 2 0 [⟨3, 7, [5]⟩]) 3 (by decide)⟩

/-- C9: LookupAsString(k) returns the empty view exactly when Lookup(k)
returns not-found, and otherwise returns a view of exactly value_size()
bytes equal to the stored value for k (stores always have a nonzero
value size: zero value size is rejected at creation). -/
theorem LookupAsString_spec (st : LRUStorage) (fp : Nat) (hwf : st.WF)
    (hvs : 0 < st.value_size) :
    (st.LookupAsString fp = [] ↔ st.Lookup fp = none)
    ∧ (∀ v t, st.Lookup fp = some (v, t) →
        st.LookupAsString fp = v ∧ v.length = st.value_size) := by
  obtain ⟨hnd, hval, hlen⟩ := hwf
  unfold LRUStorage.value_size at hvs
  unfold LRUStorage.LookupAsString LRUStorage.Lookup LRUStorage.value_size
  cases h : st.findEntry fp with
  | none => simp
  | some e =>
      unfold LRUStorage.findEntry at h
      have hmem := List.mem_of_find?_eq_some h
      have hv := hval e hmem
      have htake : e.value.take st.value_size_ = e.value :=
        List.take_of_length_le (Nat.le_of_eq hv)
      constructor
      · show e.value.take st.value_size_ = []
          ↔ (some (e.value, e.last_access) : Option (List Nat × Nat)) = none
        rw [htake]
        constructor
        · intro hnil
          rw [hnil] at hv
          simp only [List.length_nil] at hv
          omega
        · intro hc
          exact absurd hc (by simp)
      · intro v t hvt
        have hv2 : (some (e.value, e.last_access) : Option (List Nat × Nat))
            = some (v, t) := hvt
        have hv3 : e.value = v := by
          injection hv2 with h1
          exact congrArg Prod.fst h1
        show e.value.take st.value_size_ = v ∧ v.length = st.value_size_
        rw [htake, ← hv3]
        exact ⟨rfl, hv⟩

theorem LookupAsString_spec_witness :
    ((LRUStorage.mk 1 2 0 [⟨3, 7, [5]⟩]).WF)
    ∧ (0 < (LRUStorage.mk 1 2 0 [⟨3, 7, [5]⟩]).value_size)
    ∧ (((LRUStorage.mk 1 2 0 [⟨3, 7, [5]⟩]).LookupAsString 3 = []
          ↔ (LRUStorage.mk 1 2 0 [⟨3, 7, [5]⟩]).Lookup 3 = none)
        ∧ (∀ v t, (LRUStorage.mk 1 2 0 [⟨3, 7, [5]⟩]).Lookup 3 = some (v, t) →
            (LRUStorage.mk 1 2 0 [⟨3, 7, [5]⟩]).LookupAsString 3 = v
            ∧ v.length = (LRUStorage.mk 1 2 0 [⟨3, 7, [5]⟩]).value_size)) :=
  ⟨by decide, by decide,
   LookupAsString_spec (LRUStorage.mk 1 2 0 [⟨3, 7, [5]⟩]) 3 (by decide) (by decide)⟩

/-- C7: DeleteElementsBefore(t) removes exactly the live entries whose
last_access is strictly below t — after the call, Lookup finds a key if
and only if it was found before with a timestamp ≥ t, unchanged — and
the count returned plus the remaining used_size gives the old used_size;
DeleteElementsUntouchedFor62Days(now) is DeleteElementsBefore applied to
now minus 62 days. -/
theorem DeleteElementsBefore_spec (st : LRUStorage) (t now : Nat) (hwf : st.WF) :
    (st.DeleteElementsBefore t).1 + (st.DeleteElementsBefore t).2.used_size
      = st.used_size
    ∧ (∀ fp, (st.DeleteElementsBefore t).2.Lookup fp =
        match st.Lookup fp with
        | some (v, ts) => if ts < t then none else some (v, ts)
        | none => none)
    ∧ st.DeleteElementsUntouchedFor62Days now
        = st.DeleteElementsBefore (now - 62 * 24 * 60 * 60) := by
  obtain ⟨hnd, hval, hlen⟩ := hwf
  simp only [LRUStorage.fps] at hnd
  refine ⟨?_, ?_, rfl⟩
  · unfold LRUStorage.DeleteElementsBefore LRUStorage.used_size
    simp only [decide_not]
    exact LRUStorage.length_filter_add_length_filter_not st.lru_list_
      (fun e => decide (e.last_access < t))
  · intro fp
    unfold LRUStorage.Lookup LRUStorage.findEntry LRUStorage.DeleteElementsBefore
    rw [LRUStorage.find?_filter st.lru_list_ _ fp hnd]
    cases h : st.lru_list_.find? (fun e => e.fp == fp) with
    | none => rfl
    | some e =>
        by_cases hlt : e.last_access < t
        · simp [hlt]
        · simp [hlt]

theorem DeleteElementsBefore_spec_witness :
    ((LRUStorage.mk 1 3 0 [⟨3, 30, [5]⟩, ⟨2, 20, [6]⟩, ⟨1, 10, [7]⟩]).WF)
    ∧ (((LRUStorage.mk 1 3 0 [⟨3, 30, [5]⟩, ⟨2, 20, [6]⟩, ⟨1, 10, [7]⟩]).DeleteElementsBefore 20).1
        + ((LRUStorage.mk 1 3 0 [⟨3, 30, [5]⟩, ⟨2, 20, [6]⟩, ⟨1, 10, [7]⟩]).DeleteElementsBefore 20).2.used_size
        = (LRUStorage.mk 1 3 0 [⟨3, 30, [5]⟩, ⟨2, 20, [6]⟩, ⟨1, 10, [7]⟩]).used_size
      ∧ (∀ fp, ((LRUStorage.mk 1 3 0 [⟨3, 30, [5]⟩, ⟨2, 20, [6]⟩, ⟨1, 10, [7]⟩]).DeleteElementsBefore 20).2.Lookup fp =
          match (LRUStorage.mk 1 3 0 [⟨3, 30, [5]⟩, ⟨2, 20, [6]⟩, ⟨1, 10, [7]⟩]).Lookup fp with
          | some (v, ts) => if ts < 20 then none else some (v, ts)
          | none => none)
      ∧ (LRUStorage.mk 1 3 0 [⟨3, 30, [5]⟩, ⟨2, 20, [6]⟩, ⟨1, 10, [7]⟩]).DeleteElementsUntouchedFor62Days 5356820
          = (LRUStorage.mk 1 3 0 [⟨3, 30, [5]⟩, ⟨2, 20, [6]⟩, ⟨1, 10, [7]⟩]).DeleteElementsBefore (5356820 - 62 * 24 * 60 * 60)) :=
  ⟨by decide,
   DeleteElementsBefore_spec (LRUStorage.mk 1 3 0 [⟨3, 30, [5]⟩, ⟨2, 20, [6]⟩, ⟨1, 10, [7]⟩])
     20 5356820 (by decide)⟩

/-- C3: on a store of capacity at least 3 starting empty, inserting
distinct keys k1, k2, k3 with values v1, v2, v3 in that order makes
GetAllValues return [v3, v2, v1], most recently used first; after a
subsequent Touch(k1), GetAllValues returns [v1, v3, v2]. -/
theorem GetAllValues_recency_order (vsz c sd : Nat) (hc : 3 ≤ c)
    (k1 k2 k3 : Nat) (h12 : k1 ≠ k2) (h13 : k1 ≠ k3) (h23 : k2 ≠ k3)
    (v1 v2 v3 : List Nat) (t1 t2 t3 t4 : Nat) :
    ((((LRUStorage.create vsz c sd).Insert k1 v1 t1).2.Insert k2 v2 t2).2.Insert
        k3 v3 t3).2.GetAllValues = [v3, v2, v1]
    ∧ (((((LRUStorage.create vsz c sd).Insert k1 v1 t1).2.Insert k2 v2 t2).2.Insert
        k3 v3 t3).2.Touch k1 t4).2.GetAllValues = [v1, v3, v2] := by
  have b12 : (k1 == k2) = false := beq_false_of_ne h12
  have b13 : (k1 == k3) = false := beq_false_of_ne h13
  have b23 : (k2 == k3) = false := beq_false_of_ne h23
  have b21 : (k2 == k1) = false := beq_false_of_ne (Ne.symm h12)
  have b31 : (k3 == k1) = false := beq_false_of_ne (Ne.symm h13)
  have h0 : 0 < c := by omega
  have h1 : 1 < c := by omega
  have h2 : 2 < c := by omega
  have e1 : ((LRUStorage.create vsz c sd).Insert k1 v1 t1).2
      = ⟨vsz, c, sd, [⟨k1, t1, v1⟩]⟩ := by
    unfold LRUStorage.Insert LRUStorage.findEntry LRUStorage.create
    simp [h0]
  have e2 : (((LRUStorage.create vsz c sd).Insert k1 v1 t1).2.Insert k2 v2 t2).2
      = ⟨vsz, c, sd, [⟨k2, t2, v2⟩, ⟨k1, t1, v1⟩]⟩ := by
    rw [e1]
    unfold LRUStorage.Insert LRUStorage.findEntry
    simp [List.find?_cons, b12, h1]
  have e3 : ((((LRUStorage.create vsz c sd).Insert k1 v1 t1).2.Insert k2 v2 t2).2.Insert
      k3 v3 t3).2 = ⟨vsz, c, sd, [⟨k3, t3, v3⟩, ⟨k2, t2, v2⟩, ⟨k1, t1, v1⟩]⟩ := by
    rw [e2]
    unfold LRUStorage.Insert LRUStorage.findEntry
    simp [List.find?_cons, b13, b23, h2]
  have e4 : (((((LRUStorage.create vsz c sd).Insert k1 v1 t1).2.Insert k2 v2 t2).2.Insert
      k3 v3 t3).2.Touch k1 t4).2
      = ⟨vsz, c, sd, [⟨k1, t4, v1⟩, ⟨k3, t3, v3⟩, ⟨k2, t2, v2⟩]⟩ := by
    rw [e3]
    unfold LRUStorage.Touch LRUStorage.findEntry
    simp [List.find?_cons, List.eraseP_cons, b31, b21]
  rw [e4, e3]
  exact ⟨rfl, rfl⟩

theorem GetAllValues_recency_order_witness :
    (3 ≤ 3) ∧ ((1 : Nat) ≠ 2) ∧ ((1 : Nat) ≠ 3) ∧ ((2 : Nat) ≠ 3)
    ∧ (((((LRUStorage.create 1 3 0).Insert 1 [11] 10).2.Insert 2 [12] 20).2.Insert
          3 [13] 30).2.GetAllValues = [[13], [12], [11]]
        ∧ ((((((LRUStorage.create 1 3 0).Insert 1 [11] 10).2.Insert 2 [12] 20).2.Insert
          3 [13] 30).2.Touch 1 40).2.GetAllValues = [[11], [13], [12]])) :=
  ⟨by decide, by decide, by decide, by decide,
   GetAllValues_recency_order 1 3 0 (by decide) 1 2 3 (by decide) (by decide) (by decide)
     [11] [12] [13] 10 20 30 40⟩

/-! ### Capacity invariant and eviction order, towards the capacity bound -/

theorem LRUStorage.Insert_size_eq (st : LRUStorage) (fp now : Nat) (v : List Nat) :
    (st.Insert fp v now).2.size_ = st.size_ := by
  unfold LRUStorage.Insert
  cases st.findEntry fp with
  | some e => rfl
  | none =>
      by_cases hlt : st.lru_list_.length < st.size_
      · rw [if_pos hlt]
      · rw [if_neg hlt]

theorem LRUStorage.Insert_length_le (st : LRUStorage) (fp now : Nat) (v : List Nat)
    (hc : 1 ≤ st.size_) (h : st.lru_list_.length ≤ st.size_) :
    (st.Insert fp v now).2.lru_list_.length ≤ st.size_ := by
  unfold LRUStorage.Insert
  cases hf : st.findEntry fp with
  | some e =>
      unfold LRUStorage.findEntry at hf
      have hmem := List.mem_of_find?_eq_some hf
      have hp := List.find?_some hf
      have h1 : (st.lru_list_.eraseP (fun e => e.fp == fp)).length
          = st.lru_list_.length - 1 :=
        List.length_eraseP_of_mem hmem hp
      have hpos : 0 < st.lru_list_.length := List.length_pos_of_mem hmem
      simp only [List.length_cons, h1]
      omega
  | none =>
      by_cases hlt : st.lru_list_.length < st.size_
      · rw [if_pos hlt]
        simp only [List.length_cons]
        omega
      · rw [if_neg hlt]
        simp only [List.length_cons, List.length_dropLast]
        omega

theorem LRUStorage.insertList_invariant (l : List Entry) (st : LRUStorage)
    (hc : 1 ≤ st.size_) (h : st.lru_list_.length ≤ st.size_) :
    (l.foldl (fun s e => (s.Insert e.fp e.value e.last_access).2) st).size_ = st.size_
    ∧ (l.foldl (fun s e => (s.Insert e.fp e.value e.last_access).2) st).lru_list_.length
        ≤ st.size_ := by
  induction l generalizing st with
  | nil => exact ⟨rfl, h⟩
  | cons e tl ih =>
      simp only [List.foldl_cons]
      have hsz := LRUStorage.Insert_size_eq st e.fp e.last_access e.value
      have h1 := LRUStorage.Insert_length_le st e.fp e.last_access e.value hc h
      obtain ⟨ih1, ih2⟩ := ih ((st.Insert e.fp e.value e.last_access).2)
        (by omega) (by omega)
      exact ⟨by omega, by omega⟩

theorem LRUStorage.applyOp_invariant (st : LRUStorage) (op : Op)
    (hc : 1 ≤ st.size_) (h : st.lru_list_.length ≤ st.size_) :
    (st.applyOp op).size_ = st.size_
    ∧ (st.applyOp op).lru_list_.length ≤ st.size_ := by
  cases op with
  | insert fp v now =>
      exact ⟨LRUStorage.Insert_size_eq st fp now v,
        LRUStorage.Insert_length_le st fp now v hc h⟩
  | tryInsert fp v now =>
      simp only [LRUStorage.applyOp, LRUStorage.TryInsert]
      cases st.findEntry fp with
      | some e =>
          exact ⟨LRUStorage.Insert_size_eq st fp now v,
            LRUStorage.Insert_length_le st fp now v hc h⟩
      | none => exact ⟨rfl, h⟩
  | touch fp now =>
      simp only [LRUStorage.applyOp, LRUStorage.Touch]
      cases hf : st.findEntry fp with
      | some e =>
          refine ⟨rfl, ?_⟩
          unfold LRUStorage.findEntry at hf
          have hmem := List.mem_of_find?_eq_some hf
          have hp := List.find?_some hf
          have h1 : (st.lru_list_.eraseP (fun x => x.fp == fp)).length
              = st.lru_list_.length - 1 :=
            List.length_eraseP_of_mem hmem hp
          have hpos : 0 < st.lru_list_.length := List.length_pos_of_mem hmem
          simp only [List.length_cons, h1]
          omega
      | none => exact ⟨rfl, h⟩
  | delete fp =>
      simp only [LRUStorage.applyOp, LRUStorage.Delete]
      cases hf : st.findEntry fp with
      | some e =>
          refine ⟨rfl, ?_⟩
          exact le_trans (List.length_eraseP_le st.lru_list_) h
      | none => exact ⟨rfl, h⟩
  | deleteBefore t =>
      refine ⟨rfl, ?_⟩
      exact le_trans (List.length_filter_le _ st.lru_list_) h
  | clear => exact ⟨rfl, Nat.zero_le _⟩
  | merge other =>
      simp only [LRUStorage.applyOp, LRUStorage.Merge]
      by_cases hcond : (st.value_size_ == other.value_size_ && st.seed_ == other.seed_) = true
      · rw [if_pos hcond]
        exact LRUStorage.insertList_invariant _ st hc h
      · rw [if_neg hcond]
        exact ⟨rfl, h⟩

theorem LRUStorage.run_invariant (ops : List Op) (st : LRUStorage)
    (hc : 1 ≤ st.size_) (h : st.lru_list_.length ≤ st.size_) :
    (st.run ops).size_ = st.size_ ∧ (st.run ops).lru_list_.length ≤ st.size_ := by
  induction ops generalizing st with
  | nil => exact ⟨rfl, h⟩
  | cons op tl ih =>
      obtain ⟨h1, h2⟩ := LRUStorage.applyOp_invariant st op hc h
      obtain ⟨ih1, ih2⟩ := ih (st.applyOp op) (by omega) (by omega)
      refine ⟨?_, ?_⟩
      · show ((st.applyOp op).run tl).size_ = st.size_
        omega
      · show ((st.applyOp op).run tl).lru_list_.length ≤ st.size_
        omega

theorem LRUStorage.findEntry_eq_none_of_not_mem (st : LRUStorage) (fp : Nat)
    (h : fp ∉ st.lru_list_.map Entry.fp) : st.findEntry fp = none := by
  unfold LRUStorage.findEntry
  rw [List.find?_eq_none]
  intro e he
  simp only [beq_iff_eq]
  intro hfe
  exact h (hfe ▸ List.mem_map_of_mem Entry.fp he)

theorem take_append_cons_dropLast (A F : List Nat) (k n : Nat) (hF : F.length = n) :
    (A ++ k :: F.dropLast).take n = (A ++ k :: F).take n := by
  rw [List.take_append_eq_append_take, List.take_append_eq_append_take]
  congr 1
  cases hm : n - A.length with
  | zero => simp
  | succ m =>
      simp only [List.take_succ_cons]
      have hmn : m ≤ n - 1 := by omega
      rw [List.dropLast_eq_take, hF, List.take_take, Nat.min_eq_left hmn]

theorem LRUStorage.fps_insertAll (xs : List (Nat × List Nat × Nat)) (st : LRUStorage)
    (hc : 1 ≤ st.size_)
    (hnd : (xs.map Prod.fst ++ st.lru_list_.map Entry.fp).Nodup)
    (hlen : st.lru_list_.length ≤ st.size_) :
    (st.insertAll xs).lru_list_.map Entry.fp
        = ((xs.map Prod.fst).reverse ++ st.lru_list_.map Entry.fp).take st.size_
    ∧ (st.insertAll xs).size_ = st.size_ := by
  induction xs generalizing st with
  | nil =>
      refine ⟨?_, rfl⟩
      have hl : (st.lru_list_.map Entry.fp).length ≤ st.size_ := by
        rw [List.length_map]
        exact hlen
      simp only [List.map_nil, List.reverse_nil, List.nil_append]
      exact (List.take_of_length_le hl).symm
  | cons x tl ih =>
      obtain ⟨k, v, t⟩ := x
      simp only [List.map_cons, List.cons_append] at hnd
      have hkfps : k ∉ st.lru_list_.map Entry.fp := fun hm =>
        (List.nodup_cons.mp hnd).1 (List.mem_append_right _ hm)
      have hfind : st.findEntry k = none :=
        LRUStorage.findEntry_eq_none_of_not_mem st k hkfps
      by_cases hlt : st.lru_list_.length < st.size_
      · have hst1 : (st.Insert k v t).2
            = LRUStorage.mk st.value_size_ st.size_ st.seed_ (⟨k, t, v⟩ :: st.lru_list_) := by
          unfold LRUStorage.Insert
          rw [hfind, if_pos hlt]
        have hnd1 : (tl.map Prod.fst
            ++ ((⟨k, t, v⟩ : Entry) :: st.lru_list_).map Entry.fp).Nodup := by
          simp only [List.map_cons]
          exact List.perm_middle.nodup_iff.mpr hnd
        have hlen1 : ((⟨k, t, v⟩ : Entry) :: st.lru_list_).length ≤ st.size_ := by
          simp only [List.length_cons]
          omega
        obtain ⟨ih1, ih2⟩ := ih (LRUStorage.mk st.value_size_ st.size_ st.seed_
          (⟨k, t, v⟩ :: st.lru_list_)) hc hnd1 hlen1
        constructor
        · show ((st.Insert k v t).2.insertAll tl).lru_list_.map Entry.fp = _
          rw [hst1, ih1]
          simp only [List.map_cons, List.reverse_cons, List.append_assoc,
            List.singleton_append]
        · show ((st.Insert k v t).2.insertAll tl).size_ = st.size_
          rw [hst1, ih2]
      · have hfull : st.lru_list_.length = st.size_ := by omega
        have hst1 : (st.Insert k v t).2
            = LRUStorage.mk st.value_size_ st.size_ st.seed_
                (⟨k, t, v⟩ :: st.lru_list_.dropLast) := by
          unfold LRUStorage.Insert
          rw [hfind, if_neg hlt]
        have hsub : List.Sublist
            (tl.map Prod.fst ++ k :: (st.lru_list_.map Entry.fp).dropLast)
            (tl.map Prod.fst ++ k :: st.lru_list_.map Entry.fp) :=
          ((List.dropLast_sublist (st.lru_list_.map Entry.fp)).cons₂ k).append_left _
        have hnd1 : (tl.map Prod.fst
            ++ ((⟨k, t, v⟩ : Entry) :: st.lru_list_.dropLast).map Entry.fp).Nodup := by
          simp only [List.map_cons, List.map_dropLast]
          exact hsub.nodup (List.perm_middle.nodup_iff.mpr hnd)
        have hlen1 : ((⟨k, t, v⟩ : Entry) :: st.lru_list_.dropLast).length ≤ st.size_ := by
          simp only [List.length_cons, List.length_dropLast]
          omega
        obtain ⟨ih1, ih2⟩ := ih (LRUStorage.mk st.value_size_ st.size_ st.seed_
          (⟨k, t, v⟩ :: st.lru_list_.dropLast)) hc hnd1 hlen1
        constructor
        · show ((st.Insert k v t).2.insertAll tl).lru_list_.map Entry.fp = _
          rw [hst1, ih1]
          simp only [List.map_cons, List.map_dropLast]
          rw [take_append_cons_dropLast _ _ _ _ (by rw [List.length_map]; exact hfull)]
          simp only [List.reverse_cons, List.append_assoc, List.singleton_append]
        · show ((st.Insert k v t).2.insertAll tl).size_ = st.size_
          rw [hst1, ih2]

/-- C1: starting empty with capacity c ≥ 1, inserting c+1 keys with
pairwise distinct fingerprints via Insert and no intervening Touch
leaves used_size() = c and the first-inserted key no longer found; and
the number of live entries never exceeds c in any state reachable from
the empty store through the public mutating API. -/
theorem Insert_capacity_bound (vsz c sd k1 t1 : Nat) (v1 : List Nat)
    (rest : List (Nat × List Nat × Nat)) (hc : 1 ≤ c)
    (hlen : rest.length = c)
    (hnd : (k1 :: rest.map Prod.fst).Nodup)
    (ops : List Op) :
    ((LRUStorage.create vsz c sd).insertAll ((k1, v1, t1) :: rest)).used_size = c
    ∧ ((LRUStorage.create vsz c sd).insertAll ((k1, v1, t1) :: rest)).Lookup k1 = none
    ∧ ((LRUStorage.create vsz c sd).run ops).used_size ≤ c := by
  have hnd' : (((k1, v1, t1) :: rest).map Prod.fst
      ++ (LRUStorage.create vsz c sd).lru_list_.map Entry.fp).Nodup := by
    simpa [LRUStorage.create] using hnd
  obtain ⟨hfps, hsz⟩ := LRUStorage.fps_insertAll ((k1, v1, t1) :: rest)
    (LRUStorage.create vsz c sd) hc hnd' (by simp [LRUStorage.create])
  have hc_size : (LRUStorage.create vsz c sd).size_ = c := rfl
  have hc_list : (LRUStorage.create vsz c sd).lru_list_ = [] := rfl
  rw [hc_size, hc_list] at hfps
  simp only [List.map_nil, List.append_nil, List.map_cons, List.reverse_cons] at hfps
  have hrevlen : (rest.map Prod.fst).reverse.length = c := by
    rw [List.length_reverse, List.length_map, hlen]
  have htake : ((rest.map Prod.fst).reverse ++ [k1]).take c
      = (rest.map Prod.fst).reverse := by
    rw [← hrevlen, List.take_left]
  rw [htake] at hfps
  have hused : ((LRUStorage.create vsz c sd).insertAll ((k1, v1, t1) :: rest)).used_size
      = c := by
    unfold LRUStorage.used_size
    have hl := congrArg List.length hfps
    rw [List.length_map, hrevlen] at hl
    exact hl
  have hk1 : k1 ∉ rest.map Prod.fst := (List.nodup_cons.mp hnd).1
  have hk1m : k1 ∉ ((LRUStorage.create vsz c sd).insertAll
      ((k1, v1, t1) :: rest)).lru_list_.map Entry.fp := by
    rw [hfps]
    simpa [List.mem_reverse] using hk1
  have hfind := LRUStorage.findEntry_eq_none_of_not_mem _ k1 hk1m
  have hlook : ((LRUStorage.create vsz c sd).insertAll
      ((k1, v1, t1) :: rest)).Lookup k1 = none := by
    unfold LRUStorage.Lookup
    rw [hfind]
  have hrun := LRUStorage.run_invariant ops (LRUStorage.create vsz c sd) hc
    (Nat.zero_le c)
  exact ⟨hused, hlook, hrun.2⟩

theorem Insert_capacity_bound_witness :
    (1 ≤ 1) ∧ (([(2, [0], 5)] : List (Nat × List Nat × Nat)).length = 1)
    ∧ (([1, 2] : List Nat).Nodup)
    ∧ (((LRUStorage.create 1 1 0).insertAll [(1, [9], 4), (2, [0], 5)]).used_size = 1
      ∧ ((LRUStorage.create 1 1 0).insertAll [(1, [9], 4), (2, [0], 5)]).Lookup 1 = none
      ∧ ((LRUStorage.create 1 1 0).run
          [Op.insert 7 [3] 1, Op.insert 8 [4] 2, Op.touch 7 3]).used_size ≤ 1) :=
  ⟨by decide, by decide, by decide,
   Insert_capacity_bound 1 1 0 1 4 [9] [(2, [0], 5)] (by decide) (by decide) (by decide)
     [Op.insert 7 [3] 1, Op.insert 8 [4] 2, Op.touch 7 3]⟩
